import Mathlib

/-!
# Verification of the ccp memory-confidence and document-reconciliation engine

Shallow embedding of the core of the `ccp` repository
(`update-confidence.py`, `sync-claude-md.py`, `promote-workflow.py`)
together with theorems settling the specification claims.

Modelling conventions:
* Python floats are modelled as exact rationals (`ℚ`).  All numeric
  literals involved (0.1, 0.2, 0.3, 0.7, 0.8, 0.99, 0.001) are compared
  against integer-valued counters or 3-decimal confidences, far away from
  the 2^-52 gaps where binary floating point and exact rational
  comparison could disagree, so the control flow is unaffected.
* `round(x, 3)` is modelled by exact half-to-even rounding of `1000*x`.
* Timestamp strings are kept abstract (`String`, compared
  lexicographically like Python `str` comparison); elapsed days enter
  the decay pass as an explicit integer argument, abstracting the
  datetime subtraction `(utcnow() - last_accessed).days`.
* Records live in a store modelled as a `List Memory`; the
  `memory_lib` persistence helpers (`load_memory`, file writes, the
  denormalized index) are modelled as lookup/update on that list.
-/

namespace Ccp

/-- Memory lifecycle status (`metadata.status`). -/
inductive Status where
  | active
  | under_review
  | archived
  | superseded
deriving DecidableEq, Repr

/-- The `metadata` block of a memory record, restricted to the fields the
confidence engine reads and writes. -/
structure MemMeta where
  confidence : ℚ
  status : Status
  positive : ℕ
  negative : ℕ
  accessCount : ℕ
  lastAccessed : Option String
deriving DecidableEq, Repr

/-- A stored memory record: id plus metadata (the `content`, `triggers`
and `scope` fields are irrelevant to the confidence-engine claims). -/
structure Memory where
  id : String
  meta : MemMeta
deriving DecidableEq, Repr

/-- Round a rational to the nearest integer, ties to even: the behaviour
of Python `round` on exactly representable inputs. -/
def roundHalfEven (x : ℚ) : ℤ :=
  if x - ⌊x⌋ < 1/2 then ⌊x⌋
  else if x - ⌊x⌋ > 1/2 then ⌊x⌋ + 1
  else if ⌊x⌋ % 2 = 0 then ⌊x⌋ else ⌊x⌋ + 1

/-- `round(x, 3)` from `update-confidence.py` line 184. -/
def round3 (x : ℚ) : ℚ := (roundHalfEven (x * 1000) : ℚ) / 1000

/-- The value `new_confidence` computed by `apply_confidence_decay`
(update-confidence.py lines 160-178): exponential base `0.99 ** days`,
scaled by `0.5 + 0.5 * positive/access_count` *only when*
`access_count > 0` (the `if total > 0:` guard), then floored at
`min_confidence`.  The `access_count` field is taken as present
(`meta.get("access_count", 1)` defaults it to 1 only when the key is
missing from the record file). -/
def decayValue (conf : ℚ) (pos access : ℕ) (days : ℕ) (minConf : ℚ) : ℚ :=
  let base : ℚ := (99/100) ^ days
  let factor : ℚ := if 0 < access then base * (1/2 + (1/2) * ((pos : ℚ) / (access : ℚ))) else base
  max minConf (conf * factor)

/-- The closed-form decay value stated by the (amended) claim C1: the
multiplier on the exponential base is `0.5 + 0.5 * positive/access_count`
when `access_count > 0`, and `1` — not `0.5` — when `access_count = 0`. -/
def claimedDecayValue (conf : ℚ) (pos access days : ℕ) (minConf : ℚ) : ℚ :=
  max minConf
    (conf * ((99/100) ^ days *
      (if access = 0 then 1 else 1/2 + (pos : ℚ) / (2 * (access : ℚ)))))

/-- One record's step of the decay batch pass
(`apply_confidence_decay`, update-confidence.py lines 135-208), with
`dry_run = False`.  `days` is the precomputed `days_since_access`
(an integer; negative when `last_accessed` lies in the future).
Archived/superseded records are skipped; `days < 1` is skipped; a change
of at most `0.001` is treated as unchanged; otherwise the confidence is
stored rounded to 3 decimals and the record is archived when the
(unrounded) new value is `<= min_confidence`. -/
def decayStep (m : MemMeta) (days : ℤ) (minConf : ℚ) : MemMeta :=
  if m.status = .archived ∨ m.status = .superseded then m
  else if days < 1 then m
  else
    let v := decayValue m.confidence m.positive m.accessCount days.toNat minConf
    if |v - m.confidence| > 1/1000 then
      if v ≤ minConf then
        { m with confidence := round3 v, status := .archived }
      else
        { m with confidence := round3 v }
    else m

/-- The metadata part of `adjust_confidence`
(update-confidence.py lines 40-71): outcome branch, optional explicit
delta (skipped when `delta = 0`, mirroring Python's falsy `0.0`), then
access tracking (`last_accessed := now`, `access_count += 1`).
An outcome other than accepted/rejected/superseded matches no branch. -/
def adjustMeta (m : MemMeta) (outcome : String) (delta : ℚ) (now : String) : MemMeta :=
  let m1 : MemMeta :=
    if outcome = "accepted" then
      { m with confidence := min 1 (m.confidence + 1/10),
               positive := m.positive + 1 }
    else if outcome = "rejected" then
      let c := max (1/10) (m.confidence - 1/5)
      { m with confidence := c,
               negative := m.negative + 1,
               status := if c < 3/10 then .under_review else m.status }
    else if outcome = "superseded" then
      { m with status := .superseded }
    else m
  let m2 : MemMeta :=
    if delta ≠ 0 then
      { m1 with confidence := min 1 (max (1/10) (m1.confidence + delta)) }
    else m1
  { m2 with lastAccessed := some now, accessCount := m2.accessCount + 1 }

/-- `load_memory` lookup, modelled as the first record in the store with
the given id. -/
def findMemory (store : List Memory) (mid : String) : Option Memory :=
  store.find? (fun mem => mem.id = mid)

/-- `adjust_confidence` (update-confidence.py lines 23-106): `False` when
the id is unknown, otherwise updates the record in the store (the file
write and index resync are modelled as the in-place list update) and
returns `True`. -/
def adjustConfidence (store : List Memory) (mid : String) (outcome : String)
    (delta : ℚ) (now : String) : Bool × List Memory :=
  match findMemory store mid with
  | none => (false, store)
  | some _ =>
      (true,
       store.map (fun mem =>
         if mem.id = mid then { mem with meta := adjustMeta mem.meta outcome delta now } else mem))

/-- One parsed feedback-log line (`feedback.jsonl`): the fields
`process_pending_feedback` reads.  `none` models a missing JSON key;
Python's falsy test also treats `""` like a missing value. -/
structure FeedbackEntry where
  timestamp : String
  memoryId : Option String
  outcome : Option String
deriving DecidableEq, Repr

/-- The `processed` / `errors` counters of `process_pending_feedback`
(the `corrections_created` counter and the correction-record synthesis
live in `memory_lib`, outside the claims; they are not modelled). -/
structure FeedbackStats where
  processed : ℕ
  errors : ℕ
deriving DecidableEq, Repr

/-- Python falsy test on an optional string: `None` and `""` are falsy. -/
def strFalsy : Option String → Bool
  | none => true
  | some s => s = ""

/-- Lexicographic strict comparison of character lists: Python `<` on
strings (by code point; identical to the library order, but written as a
structural recursion so that proofs can compute with it). -/
def strLtChars : List Char → List Char → Bool
  | [], [] => false
  | [], _ :: _ => true
  | _ :: _, [] => false
  | a :: as, b :: bs => if a < b then true else if b < a then false else strLtChars as bs

/-- Python `a < b` on strings. -/
def strLt (a b : String) : Bool := strLtChars a.data b.data

/-- Python `a <= b` on strings (a total order, so `a <= b ↔ ¬ b < a`). -/
def strLe (a b : String) : Bool := ! strLt b a

/-- Python `max(a, b)` on strings (lexicographic). -/
def maxStr (a b : String) : String := if strLt a b then b else a

/-- Processing of a single feedback entry inside the loop of
`process_pending_feedback` (update-confidence.py lines 276-315):
a falsy `memory_id` or `outcome` is an error; otherwise
`adjust_confidence` decides between a processed entry and an error. -/
def processOne (now : String) (acc : FeedbackStats × List Memory) (e : FeedbackEntry) :
    FeedbackStats × List Memory :=
  if strFalsy e.memoryId ∨ strFalsy e.outcome then
    ({ acc.1 with errors := acc.1.errors + 1 }, acc.2)
  else
    match adjustConfidence acc.2 (e.memoryId.getD "") (e.outcome.getD "") 0 now with
    | (true, store') => ({ acc.1 with processed := acc.1.processed + 1 }, store')
    | (false, store') => ({ acc.1 with errors := acc.1.errors + 1 }, store')

/-- The new-entry filter of `process_pending_feedback`
(update-confidence.py lines 252-265): an entry is skipped exactly when
the persisted watermark is truthy (present and nonempty) and the entry's
timestamp is `<=` the watermark, Python string comparison. -/
def pendingEntries (entries : List FeedbackEntry) (lastProcessed : Option String) :
    List FeedbackEntry :=
  entries.filter fun e =>
    match lastProcessed with
    | none => true
    | some w => if w = "" then true else ! strLe e.timestamp w

/-- `max(e.get("timestamp", "") for e in entries)`: fold of the string
maximum from `""` (equal to Python's `max` on a nonempty list, since
`""` is the least string). -/
def maxTimestamp (l : List FeedbackEntry) : String :=
  l.foldl (fun acc e => maxStr acc e.timestamp) ""

/-- `process_pending_feedback` (update-confidence.py lines 225-323) on
already-parsed entries: filters out already-processed entries, folds the
per-entry processing over the store, and — whenever at least one entry
was read — persists the maximum timestamp seen as the new watermark,
regardless of per-entry errors.  Returns (stats, store, watermark). -/
def processFeedback (entries : List FeedbackEntry) (lastProcessed : Option String)
    (store : List Memory) (now : String) :
    FeedbackStats × List Memory × Option String :=
  let pending := pendingEntries entries lastProcessed
  if pending = [] then (⟨0, 0⟩, store, lastProcessed)
  else
    let res := pending.foldl (processOne now) (⟨0, 0⟩, store)
    (res.1, res.2, some (maxTimestamp pending))

/-! ### Candidate selector (`sync-claude-md.py`, `promote_memories_to_claude_md`) -/

/-- The positive-feedback ratio of the promotion filter
(sync-claude-md.py lines 199-206): neutral `0.5` when there is no
feedback at all, else `positive / (positive + negative)`. -/
def positiveRatio (p n : ℕ) : ℚ :=
  if p + n = 0 then 1/2 else (p : ℚ) / ((p : ℚ) + (n : ℚ))

/-- Modelled from the spec: `list_memories` lives in `memory_lib`, which
is not among the repository's source files; per the spec's §4.2 the call
`list_memories(..., min_confidence=AUTO_PROMOTE_THRESHOLD)` returns the
records whose confidence is at least the threshold. -/
def listMemories (store : List Memory) (minConf : ℚ) : List Memory :=
  store.filter fun mem => decide (minConf ≤ mem.meta.confidence)

/-- The promotion selector (sync-claude-md.py lines 166-209):
`list_memories` with `min_confidence = 0.8`, then the in-line filter
`positive_ratio >= 0.7 and status == "active"`. -/
def promoteSelect (store : List Memory) : List Memory :=
  (listMemories store (4/5)).filter fun mem =>
    decide (7/10 ≤ positiveRatio mem.meta.positive mem.meta.negative) &&
      decide (mem.meta.status = .active)

/-! ### Document model (`promote-workflow.py`)

Documents are manipulated the way the Python code does: as strings split
on `'\n'` into lines (`splitNl` / `joinNl` below are structural
re-implementations of `str.split('\n')` / `'\n'.join`).  The merge-engine
functions (`section_exists`, `insert_after_section`, `create_section`)
round-trip through `split('\n')` / `join('\n')`, so they are modelled
directly on line lists.  The `re.sub` marker removal in
`parse_claude_md_sections` (line 123) is the identity on documents that
do not contain the substring `"memory-sync"`; the claims about parsing
all carry that hypothesis, so the marker pass is omitted from the
definition and stated as a side condition. -/

/-- Python `str.isspace` characters relevant to `\s` and `strip()`
(ASCII): space, tab, newline, carriage return, vertical tab, form feed. -/
def pyIsSpace (c : Char) : Bool :=
  c = ' ' ∨ c = '\t' ∨ c = '\n' ∨ c = '\r' ∨ c = '\x0b' ∨ c = '\x0c'

/-- `str.strip()` on a character list. -/
def stripChars (cs : List Char) : List Char :=
  ((cs.dropWhile pyIsSpace).reverse.dropWhile pyIsSpace).reverse

/-- Python `s.strip()`. -/
def pyStrip (s : String) : String := ⟨stripChars s.data⟩

/-- Python `s.rstrip()`. -/
def pyRstrip (s : String) : String := ⟨(s.data.reverse.dropWhile pyIsSpace).reverse⟩

/-- `str.split('\n')` at the character level (returns at least one piece). -/
def splitNlChars : List Char → List (List Char)
  | [] => [[]]
  | c :: cs =>
    match splitNlChars cs with
    | [] => [[c]]
    | l :: ls => if c = '\n' then [] :: l :: ls else (c :: l) :: ls

/-- Python `s.split('\n')`. -/
def splitNl (s : String) : List String := (splitNlChars s.data).map fun cs => ⟨cs⟩

/-- Python `'\n'.join(lines)`. -/
def joinNl : List String → String
  | [] => ""
  | [l] => l
  | l :: l2 :: rest => l ++ "\n" ++ joinNl (l2 :: rest)

/-- Substring test (used only to state the "no `memory-sync` marker"
hypothesis of the parsing claims). -/
def containsSub (needle hay : String) : Bool :=
  (List.range (hay.data.length + 1)).any fun i => needle.data.isPrefixOf (hay.data.drop i)

/-- The number of leading `'#'` characters of a line. -/
def leadHashes (cs : List Char) : ℕ := (cs.takeWhile (· == '#')).length

/-- The heading matcher `^(#{2,3})\s+(.+)$` of `parse_claude_md_sections`
(promote-workflow.py line 126), applied to a single line: two or three
leading hashes (a fourth hash kills the match since `\s+` then fails),
at least one whitespace character, at least one further character.  The
reported title is `match.group(2).strip()`, which equals the text after
the hashes, stripped. -/
def parseHeading (line : String) : Option (ℕ × String) :=
  let cs := line.data
  let n := leadHashes cs
  if n = 2 ∨ n = 3 then
    match cs.drop n with
    | [] => none
    | c :: rest => if pyIsSpace c ∧ rest ≠ [] then some (n, ⟨stripChars (cs.drop n)⟩) else none
  else none

/-- A parsed document section: title, interior text, heading level.
Note the level recorded for a section is taken from the *next* heading
encountered (`len(match.group(1))` at promote-workflow.py line 139), and
the last section always gets level 2. -/
structure DocSection where
  title : String
  content : String
  level : ℕ
deriving DecidableEq, Repr

/-- Save the running section when a new heading (of level `lvl`) is hit:
Python's `if current_section:` drops a section whose title is `None` or
the empty string. -/
def saveSection (curr : Option String) (cc : List String) (lvl : ℕ) : List DocSection :=
  match curr with
  | none => []
  | some t => if t = "" then [] else [⟨t, pyStrip (joinNl cc), lvl⟩]

/-- The line loop of `parse_claude_md_sections`
(promote-workflow.py lines 128-152): accumulate non-heading lines into
the running section; on each heading, flush the running section (tagging
it with the *new* heading's level); at the end, flush with level 2. -/
def parseGo : Option String → List String → List String → List DocSection
  | curr, cc, [] => saveSection curr cc 2
  | curr, cc, l :: rest =>
    match parseHeading l with
    | some (lvl, t) => saveSection curr cc lvl ++ parseGo (some t) [] rest
    | none => parseGo curr (cc ++ [l]) rest

/-- `parse_claude_md_sections` on a document already split into lines. -/
def parseSections (lines : List String) : List DocSection := parseGo none [] lines

/-- `parse_claude_md_sections` on a document string (marker-free
documents; see the section comment). -/
def parseDoc (doc : String) : List DocSection := parseSections (splitNl doc)

/-- `"#" * level`. -/
def hashesStr (lvl : ℕ) : String := ⟨List.replicate lvl '#'⟩

/-- Modelled from the spec: the repository has no serializer for parsed
sections (§4.3 only demands `serialize(parse(doc)) == doc`); the natural
serialization emits each section as its heading line followed by its
content lines. -/
def serializeSections (ss : List DocSection) : String :=
  joinNl (ss.flatMap fun s => (hashesStr s.level ++ " " ++ s.title) :: splitNl s.content)

/-! ### Keyword extraction and duplicate detection (`promote-workflow.py`) -/

/-- Python `str.lower()` (ASCII). -/
def pyLower (s : String) : String := ⟨s.data.map Char.toLower⟩

/-- Python `\w` over ASCII: letters, digits, underscore. -/
def isWordChar (c : Char) : Bool := c.isAlphanum ∨ c = '_'

/-- Maximal runs of word characters (`\w+`) in a character list; `acc`
holds the reversed run being built. -/
def wordRunsGo (acc : List Char) : List Char → List (List Char)
  | [] => if acc = [] then [] else [acc.reverse]
  | c :: cs =>
    if isWordChar c then wordRunsGo (c :: acc) cs
    else if acc = [] then wordRunsGo [] cs
    else acc.reverse :: wordRunsGo [] cs

/-- `a ≤ c ≤ z`. -/
def isLowerAlpha (c : Char) : Bool := 'a' ≤ c ∧ c ≤ 'z'

/-- The stop-word set of `extract_keywords`
(promote-workflow.py lines 102-104; `'use'` is listed twice in the
source and appears once in the set). -/
def stopWords : List String :=
  ["the", "and", "for", "use", "when", "with", "should",
   "from", "that", "this", "have", "will", "your", "prefer",
   "default", "instead", "always", "never", "avoid", "suggest"]

/-- `extract_keywords` (promote-workflow.py lines 97-105):
`re.findall(r'\b[a-z]{3,}\b', text.lower())` keeps exactly the maximal
word-character runs that consist solely of `a-z` and have length ≥ 3
(a digit or underscore adjacent to letters destroys the `\b` boundary),
then filters the stop words. -/
def extractKeywords (text : String) : List String :=
  let runs := wordRunsGo [] (pyLower text).data
  let toks := runs.filter fun r => 3 ≤ r.length ∧ r.all isLowerAlpha
  (toks.map fun r => (⟨r⟩ : String)).filter fun w => ! stopWords.contains w

/-- The keyword set of a text (`set(extract_keywords(...))`). -/
def kwFinset (s : String) : Finset String := (extractKeywords s).toFinset

/-- The bold-bullet title matcher `^\s*[-*]\s*\*\*([^*]+)\*\*` of
`extract_memory_titles` (promote-workflow.py lines 108-115), applied to
a single line (the `re.MULTILINE` scan anchors each match at a line
start; a bullet spread over several lines via `\s*` crossing `'\n'` is
not modelled — every input considered here keeps one bullet per line).
The captured group is `.strip()`ped. -/
def parseBulletTitle (line : String) : Option String :=
  match line.data.dropWhile pyIsSpace with
  | [] => none
  | b :: rest =>
    if b = '-' ∨ b = '*' then
      match rest.dropWhile pyIsSpace with
      | '*' :: '*' :: r2 =>
        let seg := r2.takeWhile (fun c => c != '*')
        let rest2 := r2.dropWhile (fun c => c != '*')
        if seg ≠ [] then
          match rest2 with
          | '*' :: '*' :: _ => some ⟨stripChars seg⟩
          | _ => none
        else none
      | _ => none
    else none

/-- `extract_memory_titles` over the document's lines. -/
def extractTitles (content : String) : List String :=
  (splitNl content).filterMap parseBulletTitle

/-- The similarity loop of `check_duplicate`
(promote-workflow.py lines 177-190): walk the existing titles in
document order; skip a title with no keywords; report the first title
whose Jaccard similarity exceeds 0.7.  The float comparison
`len(I)/len(U) > 0.7` is modelled exactly as `10*|I| > 7*|U|` (the
`if union:` guard only excludes the empty-union case, where the code
checks nothing and this inequality is false anyway). -/
def dupLoop (kws : Finset String) : List String → Option String
  | [] => none
  | t :: ts =>
    let tk := kwFinset t
    if tk = ∅ then dupLoop kws ts
    else if 10 * (kws ∩ tk).card > 7 * (kws ∪ tk).card then some t
    else dupLoop kws ts

/-- The similarity test of the loop, as a predicate on an existing
title: Jaccard overlap of the keyword sets strictly above 0.7. -/
def simPredB (kws : Finset String) (t : String) : Bool :=
  decide (10 * (kws ∩ kwFinset t).card > 7 * (kws ∪ kwFinset t).card)

/-- `check_duplicate` (promote-workflow.py lines 157-190) on the
record's title and the document content: `'exact'` on a verbatim title
match, else `'new'` when the title has no keywords, else the first
existing title that is over 70% similar makes it `'similar'`,
else `'new'`. -/
def checkDuplicate (title : String) (content : String) : String × Option String :=
  let existing := extractTitles content
  let mt := pyStrip title
  if mt ∈ existing then ("exact", some mt)
  else
    let kws := kwFinset mt
    if kws = ∅ then ("new", none)
    else
      match dupLoop kws existing with
      | some t => ("similar", some t)
      | none => ("new", none)

/-! ### Section insertion (`promote-workflow.py`) -/

/-- All-whitespace character list. -/
def wsRun (cs : List Char) : Bool := cs.all pyIsSpace

/-- Matcher for `\s+NAME\s*$` against the text after the hashes: some
nonempty whitespace prefix, then the (escaped) name, then optional
trailing whitespace. -/
def matchesNameWs (name : String) (rest : List Char) : Bool :=
  (List.range (rest.length + 1)).any fun k =>
    decide (1 ≤ k) && wsRun (rest.take k) && name.data.isPrefixOf (rest.drop k) &&
      wsRun ((rest.drop k).drop name.data.length)

/-- `^##\s+{name}\s*$` (the pattern of `section_exists`,
promote-workflow.py line 243) against one line: exactly two leading
hashes (a third hash makes `\s+` fail on `'#'`, which `matchesNameWs`
rejects since `'#'` is not whitespace), then `\s+name\s*$`. -/
def lineIsH2For (name : String) (line : String) : Bool :=
  decide (line.data.take 2 = ['#', '#']) && matchesNameWs name (line.data.drop 2)

/-- `section_exists` (promote-workflow.py lines 241-244) over lines. -/
def sectionExists (content : List String) (name : String) : Bool :=
  content.any (lineIsH2For name)

/-- `^(#{2,})\s+{name}\s*$` with its level (the header matcher of
`insert_after_section`, promote-workflow.py line 318). -/
def headerLevelFor (name : String) (line : String) : Option ℕ :=
  let cs := line.data
  let n := leadHashes cs
  if 2 ≤ n ∧ matchesNameWs name (cs.drop n) then some n else none

/-- `^(#{2,})\s+` — any heading of level ≥ 2, with its level
(promote-workflow.py line 327). -/
def headingLevel (line : String) : Option ℕ :=
  let cs := line.data
  let n := leadHashes cs
  match cs.drop n with
  | c :: _ => if 2 ≤ n ∧ pyIsSpace c then some n else none
  | [] => none

/-- The loop of `insert_after_section`
(promote-workflow.py lines 309-340), carried over lines: a line matching
the named header (re-)enters the section and records its level; while
inside the section, the next heading of level ≤ the recorded level makes
the text (plus an empty line) be inserted before it; a document ending
inside the section appends the text. -/
def iasGo (name : String) (txt : List String) :
    List String → Bool → ℕ → List String
  | [], inSec, _ => if inSec then txt else []
  | l :: rest, inSec, lvl =>
    match headerLevelFor name l with
    | some n => l :: iasGo name txt rest true n
    | none =>
      if inSec then
        match headingLevel l with
        | some n2 =>
          if n2 ≤ lvl then txt ++ [""] ++ l :: iasGo name txt rest false lvl
          else l :: iasGo name txt rest true lvl
        | none => l :: iasGo name txt rest true lvl
      else l :: iasGo name txt rest false lvl

/-- `insert_after_section(content, section_name, text)` over lines; the
`text` argument arrives already split into lines (the code appends a
multi-line string into the line list and re-joins, which is the same). -/
def insertAfterSection (content : List String) (name : String) (txt : List String) :
    List String :=
  iasGo name txt content false 2

/-- The canonical section order of `create_section`
(promote-workflow.py lines 293-294). -/
def typeOrder : List String :=
  ["Preferences", "Patterns & Conventions", "Workflows",
   "Project-Specific", "Learned Corrections", "Avoid"]

/-- The predecessor search of `create_section`
(promote-workflow.py lines 297-303): walk the canonical order backwards
from the name's position and return the first section that exists. -/
def nearestPrev (content : List String) (name : String) : Option String :=
  ((typeOrder.takeWhile fun t => t != name).reverse).find? fun p => sectionExists content p

/-- `content.rstrip()` at the line-list level: drop trailing
all-whitespace lines and right-strip the last remaining line. -/
def stripTrailingLines (ls : List String) : List String :=
  match ls.reverse.dropWhile (fun l => wsRun l.data) with
  | [] => []
  | l :: rest => (pyRstrip l :: rest).reverse

/-- Lines of `content.rstrip()` (the line list of the empty string is
`[""]`). -/
def rstripDocLines (ls : List String) : List String :=
  match stripTrailingLines ls with
  | [] => [""]
  | r => r

/-- `content.rstrip() + "\n\n## {name}\n\n{entry}\n"` — the
append-at-end branch of `create_section`
(promote-workflow.py lines 290 and 306), as lines. -/
def appendEndDoc (content : List String) (name : String) (entry : List String) :
    List String :=
  rstripDocLines content ++ [""] ++ ["## " ++ name] ++ [""] ++ entry ++ [""]

/-- `create_section` (promote-workflow.py lines 283-306): with no parsed
sections, append at the end; with a canonical name whose nearest
preceding canonical section exists, insert `"\n## {name}\n\n{entry}"`
after that section; otherwise append at the end. -/
def createSection (content : List String) (name : String) (entry : List String) :
    List String :=
  if parseSections content = [] then appendEndDoc content name entry
  else if name ∈ typeOrder then
    match nearestPrev content name with
    | some prev => insertAfterSection content prev ([""] ++ ["## " ++ name] ++ [""] ++ entry)
    | none => appendEndDoc content name entry
  else appendEndDoc content name entry

/-! ### Import engine (`sync-claude-md.py`, `import_claude_md_to_memories`) -/

/-- `re.findall(r'\b\w{4,}\b', rule_lower)`: the maximal word-character
runs of length ≥ 4 of the lowercased bullet text
(sync-claude-md.py line 334). -/
def importWords (rule : String) : List String :=
  ((wordRunsGo [] (pyLower rule).data).filter fun r => 4 ≤ r.length).map
    fun r => (⟨r⟩ : String)

/-- First-occurrence deduplication (what the claim's "first 5 distinct
words in order of occurrence" requires; the code's `list(set(words))`
keeps each distinct word once but in hash-table order instead). -/
def dedupFirstGo (seen : List String) : List String → List String
  | [] => []
  | a :: l =>
    if seen.contains a then dedupFirstGo seen l
    else a :: dedupFirstGo (seen ++ [a]) l

/-- First-occurrence deduplication from an empty seen-set. -/
def dedupFirst (l : List String) : List String := dedupFirstGo [] l

/-- The trigger keywords the claim describes: the first 5 distinct words
of length ≥ 4, in occurrence order. -/
def claimKeywords (rule : String) : List String := (dedupFirst (importWords rule)).take 5

/-! ### Canonical documents (the class on which the amended round-trip law holds) -/

/-- A canonical section title: nonempty, already stripped, newline-free. -/
def goodTitle (t : String) : Prop :=
  t ≠ "" ∧ stripChars t.data = t.data ∧ '\n' ∉ t.data

/-- A canonical section body: a nonempty list of newline-free,
non-heading lines whose joined text is already stripped. -/
def goodBody (b : List String) : Prop :=
  b ≠ [] ∧ (∀ l ∈ b, parseHeading l = none ∧ '\n' ∉ l.data) ∧
    pyStrip (joinNl b) = joinNl b

instance (t : String) : Decidable (goodTitle t) := by
  unfold goodTitle; exact inferInstance

instance (b : List String) : Decidable (goodBody b) := by
  unfold goodBody; exact inferInstance

/-- The line sequence of a list of `(title, body)` blocks, each block a
level-2 heading line followed by its body lines. -/
def flattenBlocks (bs : List (String × List String)) : List String :=
  bs.flatMap fun blk => ("## " ++ blk.1) :: blk.2

/-- A concrete document for the create-section scenario: it has a
"Patterns & Conventions" section and no "Preferences" section. -/
def demoDoc : List String :=
  ["# CLAUDE.md", "", "## Patterns & Conventions", "",
   "- **Use feature branches**", "  - Keep main releasable", ""]

/-- A concrete formatted memory entry. -/
def demoEntry : List String :=
  ["- **Prefer uv**", "  - Use uv for Python deps"]

end Ccp

namespace Ccp

/-! ## Helper lemmas -/

lemma roundHalfEven_abs_le (x : ℚ) : |((roundHalfEven x : ℤ) : ℚ) - x| ≤ 1/2 := by
  have h1 : ((⌊x⌋ : ℤ) : ℚ) ≤ x := Int.floor_le x
  have h2 : x < ((⌊x⌋ : ℤ) : ℚ) + 1 := Int.lt_floor_add_one x
  unfold roundHalfEven
  split_ifs with ha hb hc <;> push_cast <;> rw [abs_le] <;>
    exact ⟨by linarith, by linarith⟩

lemma round3_abs_le (x : ℚ) : |round3 x - x| ≤ 1/2000 := by
  have h := roundHalfEven_abs_le (x * 1000)
  have hrw : round3 x - x = (((roundHalfEven (x * 1000) : ℤ) : ℚ) - x * 1000) / 1000 := by
    unfold round3; ring
  rw [hrw, abs_div]
  rw [show |(1000 : ℚ)| = 1000 by norm_num]
  linarith

lemma decayValue_eq_claimed (conf : ℚ) (pos access days : ℕ) (minConf : ℚ) :
    decayValue conf pos access days minConf = claimedDecayValue conf pos access days minConf := by
  simp only [decayValue, claimedDecayValue]
  rcases Nat.eq_zero_or_pos access with h | h
  · simp [h]
  · rw [if_pos h, if_neg (by omega : ¬ access = 0)]
    congr 2
    rw [div_mul_div_comm, one_mul]

lemma decayValue_le (conf : ℚ) (pos access days : ℕ) (minConf : ℚ)
    (hpa : pos ≤ access) (h0 : 0 ≤ minConf) (hc : minConf ≤ conf) (hd : 1 ≤ days) :
    decayValue conf pos access days minConf ≤ conf := by
  unfold decayValue
  have hb0 : (0 : ℚ) ≤ (99/100) ^ days := by positivity
  have hb1 : ((99:ℚ)/100) ^ days ≤ 1 :=
    pow_le_one₀ (by norm_num) (by norm_num)
  have hconf0 : (0 : ℚ) ≤ conf := le_trans h0 hc
  apply max_le hc
  rcases Nat.eq_zero_or_pos access with h | h
  · rw [if_neg (by omega)]
    calc conf * (99/100) ^ days ≤ conf * 1 := by
          exact mul_le_mul_of_nonneg_left hb1 hconf0
      _ = conf := mul_one conf
  · rw [if_pos h]
    have ha0 : (0 : ℚ) < (access : ℚ) := by exact_mod_cast h
    have hr0 : (0 : ℚ) ≤ (pos : ℚ) / (access : ℚ) := by positivity
    have hr1 : (pos : ℚ) / (access : ℚ) ≤ 1 := by
      rw [div_le_one ha0]; exact_mod_cast hpa
    have hm1 : (1:ℚ)/2 + 1/2 * ((pos : ℚ) / (access : ℚ)) ≤ 1 := by linarith
    have hm0 : (0:ℚ) ≤ 1/2 + 1/2 * ((pos : ℚ) / (access : ℚ)) := by linarith
    have hfac : (99/100 : ℚ) ^ days * (1/2 + 1/2 * ((pos : ℚ) / (access : ℚ))) ≤ 1 :=
      mul_le_one₀ hb1 hm0 hm1
    calc conf * ((99/100) ^ days * (1/2 + 1/2 * ((pos : ℚ) / (access : ℚ)))) ≤ conf * 1 :=
          mul_le_mul_of_nonneg_left hfac hconf0
      _ = conf := mul_one conf

/-! ## Claims -/

/-- C2 (confirmed): for a stored memory with confidence in [0.1, 1.0],
`adjust` with outcome "accepted" sets confidence to `min(1.0, c+0.1)`
and increments `positive_reinforcement`; with outcome "rejected" it sets
confidence to `max(0.1, c-0.2)`, increments `negative_reinforcement`,
and moves the status to `under_review` exactly when the resulting
confidence is below 0.3 (otherwise the status is left unchanged). -/
theorem claim2_adjust_feedback (m : MemMeta) (now : String)
    (h1 : 1/10 ≤ m.confidence) (h2 : m.confidence ≤ 1) :
    ((adjustMeta m "accepted" 0 now).confidence = min 1 (m.confidence + 1/10) ∧
     (adjustMeta m "accepted" 0 now).positive = m.positive + 1) ∧
    ((adjustMeta m "rejected" 0 now).confidence = max (1/10) (m.confidence - 1/5) ∧
     (adjustMeta m "rejected" 0 now).negative = m.negative + 1 ∧
     (adjustMeta m "rejected" 0 now).status =
       (if max (1/10) (m.confidence - 1/5) < 3/10 then Status.under_review else m.status)) := by
  refine ⟨⟨?_, ?_⟩, ?_, ?_, ?_⟩ <;> simp [adjustMeta]

/-- Witness for C2 at confidence 1/2. -/
theorem claim2_adjust_feedback_witness :
    ((adjustMeta ⟨1/2, .active, 2, 1, 5, none⟩ "accepted" 0 "t").confidence =
        min 1 ((1/2 : ℚ) + 1/10) ∧
     (adjustMeta ⟨1/2, .active, 2, 1, 5, none⟩ "accepted" 0 "t").positive = 2 + 1) ∧
    ((adjustMeta ⟨1/2, .active, 2, 1, 5, none⟩ "rejected" 0 "t").confidence =
        max (1/10) ((1/2 : ℚ) - 1/5) ∧
     (adjustMeta ⟨1/2, .active, 2, 1, 5, none⟩ "rejected" 0 "t").negative = 1 + 1 ∧
     (adjustMeta ⟨1/2, .active, 2, 1, 5, none⟩ "rejected" 0 "t").status =
       (if max (1/10) ((1/2 : ℚ) - 1/5) < 3/10 then Status.under_review else Status.active)) :=
  claim2_adjust_feedback ⟨1/2, .active, 2, 1, 5, none⟩ "t" (by norm_num) (by norm_num)

/-- C1 (corrected): for a non-archived, non-superseded record with at
least one whole elapsed day, the decay pass computes
`max(floor, confidence * 0.99^days * mult)` where the multiplier `mult`
is `0.5 + 0.5 * positive/access_count` when `access_count > 0` but `1`
(not `0.5`) when `access_count = 0`; the stored confidence is that value
rounded to 3 decimals, unless the change is at most 0.001, in which case
the record keeps its old confidence. -/
theorem claim1_decay_formula (m : MemMeta) (days : ℤ) (minConf : ℚ)
    (hs : m.status = .active ∨ m.status = .under_review) (hd : 1 ≤ days) :
    (decayStep m days minConf).confidence =
      (if |claimedDecayValue m.confidence m.positive m.accessCount days.toNat minConf
            - m.confidence| > 1/1000
       then round3 (claimedDecayValue m.confidence m.positive m.accessCount days.toNat minConf)
       else m.confidence) := by
  have hst : ¬ (m.status = .archived ∨ m.status = .superseded) := by
    rcases hs with h | h <;> rw [h] <;> simp
  have hdlt : ¬ days < 1 := by omega
  simp only [decayStep, if_neg hst, if_neg hdlt, decayValue_eq_claimed]
  split_ifs <;> rfl

/-- Witness for C1 at a record with confidence 1/2, one positive-free
access, two elapsed days, floor 0.1. -/
theorem claim1_decay_formula_witness :
    (1 : ℤ) ≤ 2 ∧
    (decayStep ⟨1/2, .active, 0, 0, 1, none⟩ 2 (1/10)).confidence =
      (if |claimedDecayValue (MemMeta.mk (1/2) .active 0 0 1 none).confidence
              (MemMeta.mk (1/2) .active 0 0 1 none).positive
              (MemMeta.mk (1/2) .active 0 0 1 none).accessCount (2 : ℤ).toNat (1/10)
            - (MemMeta.mk (1/2) .active 0 0 1 none).confidence| > 1/1000
       then round3 (claimedDecayValue (MemMeta.mk (1/2) .active 0 0 1 none).confidence
              (MemMeta.mk (1/2) .active 0 0 1 none).positive
              (MemMeta.mk (1/2) .active 0 0 1 none).accessCount (2 : ℤ).toNat (1/10))
       else (MemMeta.mk (1/2) .active 0 0 1 none).confidence) :=
  ⟨by norm_num,
   claim1_decay_formula ⟨1/2, .active, 0, 0, 1, none⟩ 2 (1/10) (Or.inl rfl) (by norm_num)⟩

/-- Counterexample for C1 as stated: for a record with `access_count = 0`
the claim says the multiplier is 0.5 (ratio taken as 0), i.e. new
confidence `max(0.1, 1 * 0.99^1 * (0.5 + 0.5*0)) = 0.495`; the code skips
the scaling entirely (`if total > 0:`) and stores 0.99. -/
theorem claim1_decay_access_zero_cex :
    (decayStep ⟨1, .active, 0, 0, 0, none⟩ 1 (1/10)).confidence = 99/100 ∧
    max (1/10 : ℚ) (1 * ((99/100) ^ (1:ℕ) * (1/2 + 1/2 * 0))) = 99/200 ∧
    (99/100 : ℚ) ≠ 99/200 := by
  refine ⟨?_, by norm_num, by norm_num⟩
  norm_num [decayStep, decayValue, round3, roundHalfEven, lt_abs]
  simp

/-- C8 (corrected): provided the record's reinforcement history is
consistent (`positive_reinforcement ≤ access_count`, which every
`adjust` call maintains) and its confidence is at least the
(non-negative) floor, decay never raises the confidence; and a record
whose elapsed days are below 1 is left completely unchanged. -/
theorem claim8_decay_monotone (m : MemMeta) (days : ℤ) (minConf : ℚ)
    (hpa : m.positive ≤ m.accessCount) (h0 : 0 ≤ minConf) (hc : minConf ≤ m.confidence) :
    (decayStep m days minConf).confidence ≤ m.confidence ∧
    (days < 1 → decayStep m days minConf = m) := by
  constructor
  · by_cases hst : m.status = .archived ∨ m.status = .superseded
    · rw [decayStep, if_pos hst]
    · rw [decayStep, if_neg hst]
      by_cases hdlt : days < 1
      · rw [if_pos hdlt]
      · rw [if_neg hdlt]
        have hd1 : 1 ≤ days.toNat := by omega
        have hv := decayValue_le m.confidence m.positive m.accessCount days.toNat minConf
          hpa h0 hc hd1
        set v := decayValue m.confidence m.positive m.accessCount days.toNat minConf with hvdef
        by_cases hband : |v - m.confidence| > 1/1000
        · have habs : |v - m.confidence| = m.confidence - v := by
            rw [abs_sub_comm]; exact abs_of_nonneg (by linarith)
          have hgap : m.confidence - v > 1/1000 := by rw [habs] at hband; exact hband
          have hr := round3_abs_le v
          have hr2 : round3 v ≤ v + 1/2000 := by
            have := abs_le.mp hr
            linarith [this.2]
          rw [if_pos hband]
          split_ifs <;> simp only [] <;> linarith
        · rw [if_neg hband]
  · intro hdlt
    by_cases hst : m.status = .archived ∨ m.status = .superseded
    · rw [decayStep, if_pos hst]
    · rw [decayStep, if_neg hst, if_pos hdlt]

/-- Witness for C8: a reinforcement-consistent record, 40 elapsed days. -/
theorem claim8_decay_monotone_witness :
    (decayStep ⟨3/4, .active, 2, 0, 4, none⟩ 40 (1/10)).confidence ≤ (3/4 : ℚ) ∧
    ((40 : ℤ) < 1 → decayStep ⟨3/4, .active, 2, 0, 4, none⟩ 40 (1/10) =
      ⟨3/4, .active, 2, 0, 4, none⟩) :=
  claim8_decay_monotone ⟨3/4, .active, 2, 0, 4, none⟩ 40 (1/10)
    (by norm_num) (by norm_num) (by norm_num)

/-- Counterexample for C8 as stated: a record whose
`positive_reinforcement` (3) exceeds its `access_count` (1) gets decay
factor `0.99 * (0.5 + 0.5*3) = 1.98 > 1`, so one elapsed day *raises*
its confidence from 0.5 to 0.99. -/
theorem claim8_decay_raises_cex :
    (decayStep ⟨1/2, .active, 3, 0, 1, none⟩ 1 (1/10)).confidence = 99/100 ∧
    ¬ ((decayStep ⟨1/2, .active, 3, 0, 1, none⟩ 1 (1/10)).confidence ≤
        (MemMeta.mk (1/2) .active 3 0 1 none).confidence) := by
  have h : (decayStep ⟨1/2, .active, 3, 0, 1, none⟩ 1 (1/10)).confidence = 99/100 := by
    norm_num [decayStep, decayValue, round3, roundHalfEven, lt_abs]
    simp
  refine ⟨h, ?_⟩
  rw [h]
  norm_num

/-- C3 (confirmed, spec-modelled `list_memories`): the promotion selector
returns exactly the records with status active, confidence ≥ 0.8 and
positive ratio ≥ 0.7 (ratio 0.5 when both counters are zero); hence a
record with zero feedback in both counters is never selected, and a
record whose status is not active is never selected, regardless of
confidence. -/
theorem claim3_promotion_selector :
    (∀ store mem, mem ∈ promoteSelect store ↔
       mem ∈ store ∧ mem.meta.status = .active ∧ 4/5 ≤ mem.meta.confidence ∧
         7/10 ≤ positiveRatio mem.meta.positive mem.meta.negative) ∧
    (∀ store mem, mem.meta.positive = 0 → mem.meta.negative = 0 →
       mem ∉ promoteSelect store) ∧
    (∀ store mem, mem.meta.status ≠ .active → mem ∉ promoteSelect store) := by
  have hmem : ∀ store (mem : Memory), mem ∈ promoteSelect store ↔
      mem ∈ store ∧ mem.meta.status = .active ∧ 4/5 ≤ mem.meta.confidence ∧
        7/10 ≤ positiveRatio mem.meta.positive mem.meta.negative := by
    intro store mem
    simp only [promoteSelect, listMemories, List.mem_filter, Bool.and_eq_true,
      decide_eq_true_eq]
    tauto
  refine ⟨hmem, ?_, ?_⟩
  · intro store mem hp hn hin
    rw [hmem] at hin
    have hr : positiveRatio mem.meta.positive mem.meta.negative = 1/2 := by
      rw [positiveRatio, if_pos (by omega)]
    rw [hr] at hin
    norm_num at hin
  · intro store mem hst hin
    rw [hmem] at hin
    exact hst hin.2.1

/-- C9 (corrected): after a run that found pending entries, the persisted
watermark is the maximum timestamp among them — regardless of whether
individual entries succeeded or failed — and, provided that maximum is a
nonempty string, every entry whose timestamp is `<=` the watermark is
skipped by the next run's filter, so a failed entry is not retried.
(When the maximum timestamp is the empty string, the persisted watermark
is falsy in Python and the next run skips nothing.) -/
theorem claim9_watermark (entries : List FeedbackEntry) (w : Option String)
    (store : List Memory) (now : String)
    (hne : pendingEntries entries w ≠ []) :
    (processFeedback entries w store now).2.2 =
      some (maxTimestamp (pendingEntries entries w)) ∧
    (maxTimestamp (pendingEntries entries w) ≠ "" →
      ∀ entries2 e, strLe e.timestamp (maxTimestamp (pendingEntries entries w)) = true →
        e ∉ pendingEntries entries2 (some (maxTimestamp (pendingEntries entries w)))) := by
  constructor
  · rw [processFeedback]
    simp [hne]
  · intro hw entries2 e hle hmem
    rw [pendingEntries, List.mem_filter] at hmem
    have hmem2 : (if maxTimestamp (pendingEntries entries w) = "" then true
        else ! strLe e.timestamp (maxTimestamp (pendingEntries entries w))) = true := hmem.2
    rw [if_neg hw, hle] at hmem2
    simp at hmem2

/-- Witness for C9: two pending entries (the second one addressed to a
memory that does not exist, so it fails); the watermark still advances
to the larger timestamp. -/
theorem claim9_watermark_witness :
    (processFeedback
        [⟨"2024-01-01T00:00:00Z", some "m1", some "accepted"⟩,
         ⟨"2024-01-02T00:00:00Z", some "missing", some "accepted"⟩]
        none [] "t").2.2 =
      some (maxTimestamp (pendingEntries
        [⟨"2024-01-01T00:00:00Z", some "m1", some "accepted"⟩,
         ⟨"2024-01-02T00:00:00Z", some "missing", some "accepted"⟩] none)) ∧
    (maxTimestamp (pendingEntries
        [⟨"2024-01-01T00:00:00Z", some "m1", some "accepted"⟩,
         ⟨"2024-01-02T00:00:00Z", some "missing", some "accepted"⟩] none) ≠ "" →
      ∀ entries2 e, strLe e.timestamp (maxTimestamp (pendingEntries
        [⟨"2024-01-01T00:00:00Z", some "m1", some "accepted"⟩,
         ⟨"2024-01-02T00:00:00Z", some "missing", some "accepted"⟩] none)) = true →
        e ∉ pendingEntries entries2 (some (maxTimestamp (pendingEntries
          [⟨"2024-01-01T00:00:00Z", some "m1", some "accepted"⟩,
           ⟨"2024-01-02T00:00:00Z", some "missing", some "accepted"⟩] none)))) :=
  claim9_watermark _ none [] "t" (by decide)

/-- Counterexample for C9 as stated: a run whose only entry carries an
empty timestamp persists the watermark `""`; on the next run that
watermark is falsy (`if last_processed and ...`), so the same entry —
whose timestamp is `<=` the watermark — is *not* skipped. -/
theorem claim9_watermark_cex :
    (processFeedback [⟨"", some "m1", some "accepted"⟩] none [] "t").2.2 = some "" ∧
    strLe "" "" = true ∧
    pendingEntries [⟨"", some "m1", some "accepted"⟩] (some "") =
      [⟨"", some "m1", some "accepted"⟩] := by
  refine ⟨by decide, by decide, by decide⟩

/-- C10 (confirmed): `adjust` on an existing memory with an outcome that
is none of accepted/rejected/superseded still succeeds: it leaves
confidence, status and both reinforcement counters unchanged, sets
`last_accessed` to now, increments `access_count`, persists the record,
and the feedback loop counts such an entry as processed, not as an
error. -/
theorem claim10_unknown_outcome (m : MemMeta) (outcome now : String)
    (ha : outcome ≠ "accepted") (hr : outcome ≠ "rejected") (hs : outcome ≠ "superseded") :
    adjustMeta m outcome 0 now =
      { m with lastAccessed := some now, accessCount := m.accessCount + 1 } ∧
    (∀ store mid mem, findMemory store mid = some mem →
      (adjustConfidence store mid outcome 0 now).1 = true ∧
      (adjustConfidence store mid outcome 0 now).2 =
        store.map (fun mem2 => if mem2.id = mid then
          { mem2 with meta := adjustMeta mem2.meta outcome 0 now } else mem2)) ∧
    (∀ ts mid store mem, mid ≠ "" → outcome ≠ "" → findMemory store mid = some mem →
      (processFeedback [⟨ts, some mid, some outcome⟩] none store now).1 =
        FeedbackStats.mk 1 0) := by
  refine ⟨?_, ?_, ?_⟩
  · simp [adjustMeta, ha, hr, hs]
  · intro store mid mem hf
    constructor <;> simp [adjustConfidence, hf]
  · intro ts mid store mem hmid hoc hf
    have hpend : pendingEntries [⟨ts, some mid, some outcome⟩] none =
        [⟨ts, some mid, some outcome⟩] := by
      simp [pendingEntries]
    rw [processFeedback]
    rw [hpend]
    simp only [List.foldl]
    rw [processOne]
    simp only [strFalsy, hmid, hoc]
    simp only [decide_eq_true_eq, Option.getD_some]
    rw [if_neg (by simp [hmid, hoc])]
    rw [adjustConfidence, hf]
    simp

/-! ### Split/join and parsing lemmas for the document claims -/

lemma splitNlChars_ne_nil (cs : List Char) : splitNlChars cs ≠ [] := by
  cases cs with
  | nil => simp [splitNlChars]
  | cons c cs =>
    rw [splitNlChars]
    rcases h : splitNlChars cs with _ | ⟨l, ls⟩
    · simp
    · split_ifs <;> simp

lemma splitNlChars_no_nl (cs : List Char) (h : '\n' ∉ cs) : splitNlChars cs = [cs] := by
  induction cs with
  | nil => rfl
  | cons c cs ih =>
    rw [splitNlChars]
    have hc : c ≠ '\n' := fun hh => h (hh ▸ List.mem_cons_self c cs)
    have hcs : '\n' ∉ cs := fun hh => h (List.mem_cons_of_mem c hh)
    rw [ih hcs]
    simp [hc]

lemma splitNlChars_append (a b : List Char) (h : '\n' ∉ a) :
    splitNlChars (a ++ '\n' :: b) = a :: splitNlChars b := by
  induction a with
  | nil =>
    simp only [List.nil_append]
    rw [splitNlChars]
    rcases hb : splitNlChars b with _ | ⟨l, ls⟩
    · exact absurd hb (splitNlChars_ne_nil b)
    · simp
  | cons c a ih =>
    have hc : c ≠ '\n' := fun hh => h (hh ▸ List.mem_cons_self c a)
    have ha : '\n' ∉ a := fun hh => h (List.mem_cons_of_mem c hh)
    simp only [List.cons_append]
    rw [splitNlChars, ih ha]
    simp [hc]

lemma string_mk_data (s : String) : (⟨s.data⟩ : String) = s := rfl

lemma splitNl_joinNl (ls : List String) (h : ls ≠ [])
    (hn : ∀ l ∈ ls, '\n' ∉ l.data) : splitNl (joinNl ls) = ls := by
  induction ls with
  | nil => exact absurd rfl h
  | cons l ls ih =>
    cases ls with
    | nil =>
      rw [joinNl, splitNl, splitNlChars_no_nl l.data (hn l (by simp))]
      simp [string_mk_data]
    | cons l2 rest =>
      rw [joinNl, splitNl]
      have hdata : (l ++ "\n" ++ joinNl (l2 :: rest)).data =
          l.data ++ '\n' :: (joinNl (l2 :: rest)).data := by
        simp [String.data_append]
      rw [hdata, splitNlChars_append _ _ (hn l (by simp))]
      have ihr := ih (by simp) (fun x hx => hn x (List.mem_cons_of_mem l hx))
      rw [splitNl] at ihr
      simp only [List.map_cons, string_mk_data, ihr]

lemma dropWhile_ws_append (w l : List Char) (hw : wsRun w = true) :
    (w ++ l).dropWhile pyIsSpace = l.dropWhile pyIsSpace := by
  induction w with
  | nil => rfl
  | cons c w ih =>
    rw [wsRun, List.all_cons, Bool.and_eq_true] at hw
    simp only [List.cons_append, List.dropWhile_cons_of_pos hw.1]
    exact ih hw.2

lemma dropWhile_fixed_of_strip (l : List Char) (h : stripChars l = l) :
    l.dropWhile pyIsSpace = l ∧ l.reverse.dropWhile pyIsSpace = l.reverse := by
  have hlen1 : (stripChars l).length ≤ (l.dropWhile pyIsSpace).length := by
    unfold stripChars
    calc (((l.dropWhile pyIsSpace).reverse.dropWhile pyIsSpace).reverse).length
        = ((l.dropWhile pyIsSpace).reverse.dropWhile pyIsSpace).length :=
          List.length_reverse _
      _ ≤ (l.dropWhile pyIsSpace).reverse.length := (List.dropWhile_sublist _).length_le
      _ = (l.dropWhile pyIsSpace).length := List.length_reverse _
  have hlen2 : (l.dropWhile pyIsSpace).length ≤ l.length := (List.dropWhile_sublist _).length_le
  have hdl : l.dropWhile pyIsSpace = l := by
    refine (List.dropWhile_suffix _).eq_of_length ?_
    rw [h] at hlen1
    omega
  refine ⟨hdl, ?_⟩
  have h2 : stripChars l = (l.reverse.dropWhile pyIsSpace).reverse := by
    unfold stripChars; rw [hdl]
  rw [h2] at h
  have := congrArg List.reverse h
  simpa using this

lemma stripChars_nil_iff (l : List Char) : stripChars l = [] ↔ wsRun l = true := by
  constructor
  · intro h
    rw [wsRun, List.all_eq_true]
    intro x hx
    have hsplit := List.takeWhile_append_dropWhile (p := pyIsSpace) (l := l)
    unfold stripChars at h
    have hrev : (l.dropWhile pyIsSpace).reverse.dropWhile pyIsSpace = [] := by
      have := congrArg List.reverse h
      simpa using this
    rw [List.dropWhile_eq_nil_iff] at hrev
    rw [← hsplit] at hx
    rcases List.mem_append.mp hx with hx | hx
    · exact List.mem_takeWhile_imp hx
    · exact hrev x (List.mem_reverse.mpr hx)
  · intro h
    have : l.dropWhile pyIsSpace = [] := by
      rw [List.dropWhile_eq_nil_iff]
      intro x hx
      rw [wsRun, List.all_eq_true] at h
      exact h x hx
    unfold stripChars
    rw [this]
    rfl

lemma parseHeading_block_header (t : String) (ht : goodTitle t) :
    parseHeading ("## " ++ t) = some (2, t) := by
  obtain ⟨hne, hstrip, -⟩ := ht
  have hdata : ("## " ++ t).data = '#' :: '#' :: ' ' :: t.data := by
    simp [String.data_append]
  have hdl := dropWhile_fixed_of_strip t.data hstrip
  have htd : t.data ≠ [] := by
    intro hh
    exact hne (show t = "" from by
      have := string_mk_data t
      rw [hh] at this
      exact this.symm)
  rw [parseHeading, hdata]
  have hlead : leadHashes ('#' :: '#' :: ' ' :: t.data) = 2 := by
    rw [leadHashes]
    rw [List.takeWhile_cons_of_pos (by decide), List.takeWhile_cons_of_pos (by decide),
      List.takeWhile_cons_of_neg (by decide)]
    rfl
  rw [hlead]
  rw [if_pos (Or.inl rfl)]
  simp only [List.drop_succ_cons, List.drop_zero]
  rw [if_pos ⟨by decide, htd⟩]
  have hstripped : stripChars (' ' :: t.data) = t.data := by
    unfold stripChars
    rw [List.dropWhile_cons_of_pos (by decide)]
    rw [hdl.1]
    have := congrArg List.reverse hdl.2
    simp only [List.reverse_reverse] at this
    rw [this]
  rw [hstripped]

lemma parseGo_nil (curr : Option String) (cc : List String) :
    parseGo curr cc [] = saveSection curr cc 2 := rfl

lemma parseGo_cons (curr : Option String) (cc : List String) (l : String)
    (rest : List String) :
    parseGo curr cc (l :: rest) =
      (match parseHeading l with
       | some (lvl, t) => saveSection curr cc lvl ++ parseGo (some t) [] rest
       | none => parseGo curr (cc ++ [l]) rest) := rfl

lemma saveSection_some (t : String) (cc : List String) (lvl : ℕ) :
    saveSection (some t) cc lvl =
      if t = "" then [] else [⟨t, pyStrip (joinNl cc), lvl⟩] := rfl

lemma parseGo_append_content (curr : Option String) (cc body rest : List String)
    (hb : ∀ l ∈ body, parseHeading l = none) :
    parseGo curr cc (body ++ rest) = parseGo curr (cc ++ body) rest := by
  induction body generalizing cc with
  | nil => simp
  | cons l body ih =>
    have hl : parseHeading l = none := hb l (by simp)
    simp only [List.cons_append, parseGo_cons, hl]
    rw [ih (cc ++ [l]) (fun x hx => hb x (List.mem_cons_of_mem l hx))]
    simp

lemma flattenBlocks_nil : flattenBlocks [] = [] := rfl

lemma flattenBlocks_cons (blk : String × List String) (bs : List (String × List String)) :
    flattenBlocks (blk :: bs) = ("## " ++ blk.1) :: (blk.2 ++ flattenBlocks bs) := by
  rw [flattenBlocks, flattenBlocks]
  simp

lemma parseGo_blocks (bs : List (String × List String)) (t : String) (b : List String)
    (hbs : ∀ blk ∈ bs, goodTitle blk.1 ∧ goodBody blk.2)
    (ht : goodTitle t) (hb : goodBody b) :
    parseGo (some t) b (flattenBlocks bs) =
      ⟨t, joinNl b, 2⟩ :: bs.map (fun blk => ⟨blk.1, joinNl blk.2, 2⟩) := by
  induction bs generalizing t b with
  | nil =>
    rw [flattenBlocks_nil]
    rw [parseGo_nil, saveSection_some, if_neg ht.1, hb.2.2]
    simp
  | cons blk bs ih =>
    obtain ⟨ht', hb'⟩ := hbs blk (by simp)
    rw [flattenBlocks_cons]
    simp only [parseGo_cons, parseHeading_block_header blk.1 ht']
    rw [saveSection_some, if_neg ht.1, hb.2.2]
    have hbody : ∀ l ∈ blk.2, parseHeading l = none := fun l hl => (hb'.2.1 l hl).1
    have := parseGo_append_content (some blk.1) [] blk.2 (flattenBlocks bs) hbody
    simp only [List.nil_append] at this
    rw [this]
    rw [ih blk.1 blk.2 (fun x hx => hbs x (List.mem_cons_of_mem blk hx)) ht' hb']
    simp

lemma parseSections_blocks (bs : List (String × List String))
    (hbs : ∀ blk ∈ bs, goodTitle blk.1 ∧ goodBody blk.2) (hne : bs ≠ []) :
    parseSections (flattenBlocks bs) =
      bs.map (fun blk => ⟨blk.1, joinNl blk.2, 2⟩) := by
  cases bs with
  | nil => exact absurd rfl hne
  | cons blk bs =>
    obtain ⟨ht, hb⟩ := hbs blk (by simp)
    rw [parseSections, flattenBlocks_cons]
    simp only [parseGo_cons, parseHeading_block_header blk.1 ht]
    rw [show saveSection none [] 2 = [] from rfl]
    have hbody : ∀ l ∈ blk.2, parseHeading l = none := fun l hl => (hb.2.1 l hl).1
    have h2 := parseGo_append_content (some blk.1) [] blk.2 (flattenBlocks bs) hbody
    simp only [List.nil_append] at h2
    rw [h2]
    rw [parseGo_blocks bs blk.1 blk.2 (fun x hx => hbs x (List.mem_cons_of_mem blk hx)) ht hb]
    simp

lemma serialize_lines (bs : List (String × List String))
    (hbs : ∀ blk ∈ bs, goodTitle blk.1 ∧ goodBody blk.2) :
    ((bs.map fun blk => (⟨blk.1, joinNl blk.2, 2⟩ : DocSection)).flatMap
      fun s => (hashesStr s.level ++ " " ++ s.title) :: splitNl s.content) =
      flattenBlocks bs := by
  induction bs with
  | nil => rfl
  | cons blk bs ih =>
    obtain ⟨ht, hb⟩ := hbs blk (by simp)
    simp only [List.map_cons, List.flatMap_cons, flattenBlocks, List.flatMap_cons] at *
    have hhead : hashesStr 2 ++ " " ++ blk.1 = "## " ++ blk.1 := by
      apply String.ext
      simp [String.data_append, hashesStr, List.replicate]
    have hsplit : splitNl (joinNl blk.2) = blk.2 :=
      splitNl_joinNl blk.2 hb.1 (fun l hl => (hb.2.1 l hl).2)
    rw [hhead, hsplit, ih (fun x hx => hbs x (List.mem_cons_of_mem blk hx))]

/-- C4 (corrected): parsing is lossy (text before the first heading is
dropped and whitespace is normalised), so a byte-identical round trip is
impossible in general; but on marker-free documents in canonical form —
a nonempty sequence of blocks, each a `## title` heading line (title
nonempty, stripped, newline-free) followed by a nonempty body of
newline-free non-heading lines that is stripped as a whole —
re-serialising the parse reproduces the document byte for byte. -/
theorem claim4_roundtrip_canonical (bs : List (String × List String))
    (hne : bs ≠ [])
    (hbs : ∀ blk ∈ bs, goodTitle blk.1 ∧ goodBody blk.2)
    (hmk : containsSub "memory-sync" (joinNl (flattenBlocks bs)) = false) :
    serializeSections (parseDoc (joinNl (flattenBlocks bs))) = joinNl (flattenBlocks bs) := by
  have hlines : ∀ l ∈ flattenBlocks bs, '\n' ∉ l.data := by
    intro l hl
    rw [flattenBlocks, List.mem_flatMap] at hl
    obtain ⟨blk, hblk, hl⟩ := hl
    obtain ⟨ht, hb⟩ := hbs blk hblk
    rcases List.mem_cons.mp hl with h | h
    · subst h
      intro hc
      rw [String.data_append] at hc
      rcases List.mem_append.mp hc with h | h
      · revert h; decide
      · exact ht.2.2 h
    · exact (hb.2.1 l h).2
  have hfne : flattenBlocks bs ≠ [] := by
    cases bs with
    | nil => exact absurd rfl hne
    | cons blk bs => rw [flattenBlocks]; simp
  rw [parseDoc, splitNl_joinNl (flattenBlocks bs) hfne hlines,
    parseSections_blocks bs hbs hne, serializeSections, serialize_lines bs hbs]

/-- Witness for C4: the canonical two-section document
`"## A\nalpha body\n## B\nbeta body"`. -/
theorem claim4_roundtrip_canonical_witness :
    serializeSections (parseDoc (joinNl (flattenBlocks
        [("A", ["alpha body"]), ("B", ["beta body"])]))) =
      joinNl (flattenBlocks [("A", ["alpha body"]), ("B", ["beta body"])]) :=
  claim4_roundtrip_canonical [("A", ["alpha body"]), ("B", ["beta body"])]
    (by decide) (by decide) (by decide)

/-- Counterexample for C4 as stated: two distinct marker-free documents
with the same parse (the preamble line `"intro"` is dropped), so no
serializer can reproduce both; in particular the natural serializer does
not reproduce the first one. -/
theorem claim4_roundtrip_cex :
    containsSub "memory-sync" "intro\n## A\nx" = false ∧
    containsSub "memory-sync" "## A\nx" = false ∧
    parseDoc "intro\n## A\nx" = parseDoc "## A\nx" ∧
    "intro\n## A\nx" ≠ "## A\nx" ∧
    serializeSections (parseDoc "intro\n## A\nx") ≠ "intro\n## A\nx" := by
  refine ⟨by decide, by decide, by decide, by decide, by decide⟩

/-! ### Duplicate-detection lemmas (C5) -/

lemma dupLoop_cons (kws : Finset String) (t : String) (ts : List String) :
    dupLoop kws (t :: ts) =
      (if kwFinset t = ∅ then dupLoop kws ts
       else if 10 * (kws ∩ kwFinset t).card > 7 * (kws ∪ kwFinset t).card then some t
       else dupLoop kws ts) := rfl

lemma dupLoop_eq_find (kws : Finset String) (ts : List String) :
    dupLoop kws ts = ts.find? (simPredB kws) := by
  induction ts with
  | nil => rfl
  | cons t ts ih =>
    rw [dupLoop_cons]
    by_cases h1 : kwFinset t = ∅
    · have hp : simPredB kws t = false := by
        rw [simPredB, h1]
        simp
      rw [if_pos h1, List.find?_cons_of_neg _ (by simp [hp]), ih]
    · rw [if_neg h1]
      by_cases h2 : 10 * (kws ∩ kwFinset t).card > 7 * (kws ∪ kwFinset t).card
      · have hp : simPredB kws t = true := by rw [simPredB]; exact decide_eq_true h2
        rw [if_pos h2, List.find?_cons_of_pos _ hp]
      · have hp : simPredB kws t = false := by rw [simPredB]; exact decide_eq_false h2
        rw [if_neg h2, List.find?_cons_of_neg _ (by simp [hp]), ih]

lemma checkDuplicate_eq (title content : String) :
    checkDuplicate title content =
      (if pyStrip title ∈ extractTitles content then ("exact", some (pyStrip title))
       else if kwFinset (pyStrip title) = ∅ then ("new", none)
       else
         match (extractTitles content).find? (simPredB (kwFinset (pyStrip title))) with
         | some t => ("similar", some t)
         | none => ("new", none)) := by
  simp only [checkDuplicate, dupLoop_eq_find]

lemma simPredB_empty (t : String) : simPredB ∅ t = false := by
  rw [simPredB]
  simp

/-- C5 (confirmed): duplicate status is `exact` exactly on a verbatim
(stripped) title match; otherwise `similar` exactly when some existing
title exceeds 0.7 Jaccard keyword similarity — and then the reported
match is the first such title in document order; a record sharing no
keyword with any existing title is never `similar`; the status is always
one of exact/similar/new. -/
theorem claim5_duplicate_status :
    (∀ title content,
      ((checkDuplicate title content).1 = "exact" ↔
        pyStrip title ∈ extractTitles content)) ∧
    (∀ title content,
      ((checkDuplicate title content).1 = "similar" ↔
        (pyStrip title ∉ extractTitles content ∧
         ∃ t ∈ extractTitles content,
           simPredB (kwFinset (pyStrip title)) t = true))) ∧
    (∀ title content t, checkDuplicate title content = ("similar", some t) →
      (extractTitles content).find? (simPredB (kwFinset (pyStrip title))) = some t) ∧
    (∀ title content,
      (∀ t ∈ extractTitles content, kwFinset (pyStrip title) ∩ kwFinset t = ∅) →
      (checkDuplicate title content).1 ≠ "similar") ∧
    (∀ title content, (checkDuplicate title content).1 = "exact" ∨
      (checkDuplicate title content).1 = "similar" ∨
      (checkDuplicate title content).1 = "new") := by
  have hsim : ∀ title content,
      ((checkDuplicate title content).1 = "similar" ↔
        (pyStrip title ∉ extractTitles content ∧
         ∃ t ∈ extractTitles content,
           simPredB (kwFinset (pyStrip title)) t = true)) := by
    intro title content
    rw [checkDuplicate_eq]
    by_cases hmem : pyStrip title ∈ extractTitles content
    · rw [if_pos hmem]
      simp [hmem]
    · rw [if_neg hmem]
      by_cases hkw : kwFinset (pyStrip title) = ∅
      · rw [if_pos hkw]
        constructor
        · intro h
          exact absurd h (by decide)
        · rintro ⟨-, t, hmemt, hpred⟩
          rw [hkw, simPredB_empty] at hpred
          exact absurd hpred (by simp)
      · rw [if_neg hkw]
        rcases hfind : (extractTitles content).find?
            (simPredB (kwFinset (pyStrip title))) with _ | u
        · constructor
          · intro h
            exact absurd h (by decide)
          · rintro ⟨-, t, hmemt, hpred⟩
            rw [List.find?_eq_none] at hfind
            exact absurd hpred (by simp [hfind t hmemt])
        · constructor
          · intro _
            exact ⟨hmem, u, List.mem_of_find?_eq_some hfind, List.find?_some hfind⟩
          · intro _
            rfl
  refine ⟨?_, hsim, ?_, ?_, ?_⟩
  · intro title content
    rw [checkDuplicate_eq]
    by_cases hmem : pyStrip title ∈ extractTitles content
    · rw [if_pos hmem]
      simp [hmem]
    · rw [if_neg hmem]
      by_cases hkw : kwFinset (pyStrip title) = ∅
      · rw [if_pos hkw]
        simp only [hmem, iff_false]
        exact by decide
      · rw [if_neg hkw]
        rcases hfind : (extractTitles content).find?
            (simPredB (kwFinset (pyStrip title))) with _ | u
        · simp only [hmem, iff_false]
          exact by decide
        · simp only [hmem, iff_false]
          exact by decide
  · intro title content t h
    rw [checkDuplicate_eq] at h
    by_cases hmem : pyStrip title ∈ extractTitles content
    · rw [if_pos hmem] at h
      have h1 : "exact" = "similar" := congrArg Prod.fst h
      exact absurd h1 (by decide)
    · rw [if_neg hmem] at h
      by_cases hkw : kwFinset (pyStrip title) = ∅
      · rw [if_pos hkw] at h
        have h1 : "new" = "similar" := congrArg Prod.fst h
        exact absurd h1 (by decide)
      · rw [if_neg hkw] at h
        rcases hfind : (extractTitles content).find?
            (simPredB (kwFinset (pyStrip title))) with _ | u
        · rw [hfind] at h
          have h1 : "new" = "similar" := congrArg Prod.fst h
          exact absurd h1 (by decide)
        · rw [hfind] at h
          have h2 : some u = some t := congrArg Prod.snd h
          rw [← Option.some_inj.mp h2]
  · intro title content hshare h
    rw [hsim title content] at h
    obtain ⟨-, t, hmemt, hpred⟩ := h
    rw [simPredB, hshare t hmemt] at hpred
    simp at hpred
  · intro title content
    rw [checkDuplicate_eq]
    by_cases hmem : pyStrip title ∈ extractTitles content
    · rw [if_pos hmem]
      left
      rfl
    · rw [if_neg hmem]
      by_cases hkw : kwFinset (pyStrip title) = ∅
      · rw [if_pos hkw]
        right; right; rfl
      · rw [if_neg hkw]
        rcases hfind : (extractTitles content).find?
            (simPredB (kwFinset (pyStrip title))) with _ | u
        · right; right; rfl
        · right; left; rfl

/-! ### Section-creation lemmas (C6) -/

lemma parseGo_some_ne_nil (t : String) (ht : t ≠ "") (rest : List String) :
    ∀ cc, parseGo (some t) cc rest ≠ [] := by
  induction rest with
  | nil =>
    intro cc
    rw [parseGo_nil, saveSection_some, if_neg ht]
    simp
  | cons l rest ih =>
    intro cc
    rw [parseGo_cons]
    rcases hl : parseHeading l with _ | p
    · simp only [hl]
      exact ih (cc ++ [l])
    · obtain ⟨lvl, t'⟩ := p
      simp only [hl]
      rw [saveSection_some, if_neg ht]
      simp

lemma parseGo_ne_nil_of_mem (content : List String) (l : String) (hl : l ∈ content)
    (t : String) (hht : parseHeading l = some (2, t)) (htne : t ≠ "") :
    ∀ curr cc, parseGo curr cc content ≠ [] := by
  induction content with
  | nil => exact absurd hl (List.not_mem_nil l)
  | cons a rest ih =>
    intro curr cc
    rcases List.mem_cons.mp hl with rfl | hmem
    · rw [parseGo_cons]
      simp only [hht]
      have hne := parseGo_some_ne_nil t htne rest []
      intro hc
      exact hne (List.append_eq_nil.mp hc).2
    · rw [parseGo_cons]
      rcases hha : parseHeading a with _ | p
      · simp only [hha]
        exact ih hmem curr (cc ++ [a])
      · obtain ⟨lvl, t'⟩ := p
        simp only [hha]
        intro hc
        exact (ih hmem (some t') []) (List.append_eq_nil.mp hc).2

lemma matchesNameWs_spec (name : String) (rest : List Char)
    (h : matchesNameWs name rest = true) :
    ∃ k, 1 ≤ k ∧ wsRun (rest.take k) = true ∧
      name.data.isPrefixOf (rest.drop k) = true ∧
      wsRun ((rest.drop k).drop name.data.length) = true := by
  rw [matchesNameWs, List.any_eq_true] at h
  obtain ⟨k, hkmem, hk⟩ := h
  simp only [Bool.and_eq_true, decide_eq_true_eq] at hk
  exact ⟨k, hk.1.1.1, hk.1.1.2, hk.1.2, hk.2⟩

lemma data_eq_nil_iff (s : String) : s.data = [] ↔ s = "" := by
  constructor
  · intro h
    have h2 := string_mk_data s
    rw [h] at h2
    exact h2.symm
  · intro h
    rw [h]

lemma parseHeading_of_h2 (name line : String) (h : lineIsH2For name line = true)
    (hname : name ≠ "") (hcanon : wsRun name.data = false) :
    ∃ t, parseHeading line = some (2, t) ∧ t ≠ "" := by
  rw [lineIsH2For, Bool.and_eq_true, decide_eq_true_eq] at h
  obtain ⟨htake, hmatch⟩ := h
  obtain ⟨k, hk1, hw1, hpre, hw3⟩ := matchesNameWs_spec name _ hmatch
  have hnd : name.data ≠ [] := fun hh => hname ((data_eq_nil_iff name).mp hh)
  have hpre' : name.data <+: (line.data.drop 2).drop k :=
    List.isPrefixOf_iff_prefix.mp hpre
  obtain ⟨w3, hw3eq⟩ := hpre'
  have hrest_ne : line.data.drop 2 ≠ [] := by
    intro hh
    rw [hh] at hw3eq
    simp only [List.drop_nil] at hw3eq
    exact hnd (List.append_eq_nil.mp hw3eq).1
  obtain ⟨r0, rtail, hr0⟩ := List.exists_cons_of_ne_nil hrest_ne
  have hr0mem : r0 ∈ (line.data.drop 2).take k := by
    rw [hr0]
    rcases k with _ | k
    · omega
    · rw [List.take_succ_cons]
      exact List.mem_cons_self r0 _
  have hr0ws : pyIsSpace r0 = true := by
    rw [wsRun, List.all_eq_true] at hw1
    exact hw1 r0 hr0mem
  have hlen2 : 2 ≤ (line.data.drop 2).length := by
    have hsplit := congrArg List.length (List.take_append_drop k (line.data.drop 2))
    rw [List.length_append] at hsplit
    have h1 : 1 ≤ ((line.data.drop 2).take k).length := List.length_pos.mpr (by
      intro hh
      rw [hh] at hr0mem
      exact List.not_mem_nil r0 hr0mem)
    have h2 : 1 ≤ ((line.data.drop 2).drop k).length := by
      rw [← hw3eq, List.length_append]
      have := List.length_pos.mpr hnd
      omega
    omega
  have hrtail_ne : rtail ≠ [] := by
    intro hh
    rw [hr0, hh] at hlen2
    simp at hlen2
  have hlined : line.data = '#' :: '#' :: line.data.drop 2 := by
    conv_lhs => rw [← List.take_append_drop 2 line.data]
    rw [htake]
    rfl
  have hr0hash : (r0 == '#') = false := by
    apply beq_eq_false_iff_ne.mpr
    intro hc
    rw [hc] at hr0ws
    exact absurd hr0ws (by decide)
  rw [parseHeading, hlined]
  have hlead : leadHashes ('#' :: '#' :: line.data.drop 2) = 2 := by
    rw [hr0, leadHashes, List.takeWhile_cons_of_pos (by decide),
      List.takeWhile_cons_of_pos (by decide), List.takeWhile_cons_of_neg (by simp [hr0hash])]
    rfl
  rw [hlead, if_pos (Or.inl rfl)]
  simp only [List.drop_succ_cons, List.drop_zero]
  rw [hr0]
  refine ⟨⟨stripChars (r0 :: rtail)⟩, ?_, ?_⟩
  · show (if pyIsSpace r0 = true ∧ rtail ≠ [] then
        some (2, (⟨stripChars (r0 :: rtail)⟩ : String)) else none) =
      some (2, (⟨stripChars (r0 :: rtail)⟩ : String))
    rw [if_pos ⟨hr0ws, hrtail_ne⟩]
  intro hh
  have hnil : stripChars (r0 :: rtail) = [] := congrArg String.data hh
  rw [stripChars_nil_iff, ← hr0, wsRun, List.all_eq_true] at hnil
  have hall : wsRun name.data = true := by
    rw [wsRun, List.all_eq_true]
    intro x hx
    apply hnil
    have hx2 : x ∈ (line.data.drop 2).drop k := by
      rw [← hw3eq]
      exact List.mem_append_left _ hx
    exact List.mem_of_mem_drop hx2
  rw [hall] at hcanon
  exact absurd hcanon (by decide)

lemma nearestPrev_spec (content : List String) (name prev : String)
    (h : nearestPrev content name = some prev) :
    prev ∈ typeOrder ∧ sectionExists content prev = true := by
  rw [nearestPrev] at h
  refine ⟨?_, List.find?_some h⟩
  have hmem := List.mem_of_find?_eq_some h
  rw [List.mem_reverse] at hmem
  exact (List.takeWhile_sublist _).subset hmem

/-- C6 (confirmed): when the mapped section is missing, `create_section`
inserts the new section after the nearest preceding existing canonical
section when one exists, and otherwise appends it at the end of the
document; in particular a "preference" record promoted into a document
with a "Patterns & Conventions" section but no "Preferences" section
gets a fresh "Preferences" section at the very end (canonical order has
no predecessor for "Preferences"), not one after
"Patterns & Conventions". -/
theorem claim6_create_section :
    (∀ content name entry, name ∉ typeOrder →
       createSection content name entry = appendEndDoc content name entry) ∧
    (∀ content name entry, nearestPrev content name = none →
       createSection content name entry = appendEndDoc content name entry) ∧
    (∀ content name entry prev, name ∈ typeOrder →
       nearestPrev content name = some prev →
       createSection content name entry =
         insertAfterSection content prev ([""] ++ ["## " ++ name] ++ [""] ++ entry)) ∧
    (sectionExists demoDoc "Patterns & Conventions" = true ∧
     sectionExists demoDoc "Preferences" = false ∧
     nearestPrev demoDoc "Preferences" = none ∧
     createSection demoDoc "Preferences" demoEntry =
       ["# CLAUDE.md", "", "## Patterns & Conventions", "",
        "- **Use feature branches**", "  - Keep main releasable",
        "", "## Preferences", ""] ++ demoEntry ++ [""]) := by
  refine ⟨?_, ?_, ?_, by decide, by decide, by decide, by decide⟩
  · intro content name entry h
    rw [createSection]
    by_cases h1 : parseSections content = []
    · rw [if_pos h1]
    · rw [if_neg h1, if_neg h]
  · intro content name entry h
    rw [createSection]
    by_cases h1 : parseSections content = []
    · rw [if_pos h1]
    · rw [if_neg h1]
      by_cases h2 : name ∈ typeOrder
      · rw [if_pos h2, h]
      · rw [if_neg h2]
  · intro content name entry prev hmem hprev
    obtain ⟨hprevmem, hexists⟩ := nearestPrev_spec content name prev hprev
    have hfacts : ∀ p ∈ typeOrder, p ≠ "" ∧ wsRun p.data = false := by decide
    obtain ⟨hpne, hpws⟩ := hfacts prev hprevmem
    rw [sectionExists, List.any_eq_true] at hexists
    obtain ⟨l, hlmem, hl⟩ := hexists
    obtain ⟨t, hht, htne⟩ := parseHeading_of_h2 prev l hl hpne hpws
    have hne : parseSections content ≠ [] := by
      rw [parseSections]
      exact parseGo_ne_nil_of_mem content l hlmem t hht htne none []
    rw [createSection, if_neg hne, if_pos hmem, hprev]

/-- C7: what the claim describes — the first 5 distinct long words in
occurrence order — evaluated at a bullet with 6 distinct words, and a
demonstration that the code's `list(set(words))[:5]` (an arbitrary
enumeration of the distinct-word set in hash-table order) is not bound
to produce that list: some enumeration of the same set yields a
different 5-word selection. -/
theorem claim7_import_keywords :
    claimKeywords "alpha bravo charlie delta echo foxtrot" =
      ["alpha", "bravo", "charlie", "delta", "echo"] ∧
    ∃ l : List String,
      l.Perm (dedupFirst (importWords "alpha bravo charlie delta echo foxtrot")) ∧
      l.take 5 ≠ claimKeywords "alpha bravo charlie delta echo foxtrot" := by
  refine ⟨by decide,
    ⟨["foxtrot", "echo", "delta", "charlie", "bravo", "alpha"], by decide, by decide⟩⟩

/-- Witness for C10 with outcome "noted". -/
theorem claim10_unknown_outcome_witness :
    adjustMeta ⟨1/2, .active, 2, 1, 5, none⟩ "noted" 0 "t" =
      { MemMeta.mk (1/2) .active 2 1 5 none with
          lastAccessed := some "t",
          accessCount := (MemMeta.mk (1/2) .active 2 1 5 none).accessCount + 1 } ∧
    (∀ store mid mem, findMemory store mid = some mem →
      (adjustConfidence store mid "noted" 0 "t").1 = true ∧
      (adjustConfidence store mid "noted" 0 "t").2 =
        store.map (fun mem2 => if mem2.id = mid then
          { mem2 with meta := adjustMeta mem2.meta "noted" 0 "t" } else mem2)) ∧
    (∀ ts mid store mem, mid ≠ "" → "noted" ≠ "" → findMemory store mid = some mem →
      (processFeedback [⟨ts, some mid, some "noted"⟩] none store "t").1 =
        FeedbackStats.mk 1 0) :=
  claim10_unknown_outcome ⟨1/2, .active, 2, 1, 5, none⟩ "noted" "t"
    (by decide) (by decide) (by decide)

end Ccp
